import Mathlib

/-!
Verification of the simple-perm-manager library: a shallow embedding of the
action codec (`src/permission/action_serialization/mod.rs`), the `Permission`
set algebra (`src/permission/mod.rs`) and the `PermissionManager`
(`src/permission_manager/mod.rs`), together with proofs of the specified
properties.

Modelling conventions:
- Rust `panic!` sites are modelled as `Except` errors; each error constructor
  is named after the failure kind the specification gives for that panic.
- `HashSet<String>` is modelled as `Finset String`; where the source iterates
  a `HashSet` (the encoder's outer loop), the input is taken as a `List`
  representing the iteration order, which Rust leaves unspecified.
- `serde_json::Value` is modelled by the inductive `Json`; `serde_json::Map`
  as an association list.  `Uuid` is an opaque token, modelled as `Nat`.
-/

namespace SimplePermManager

/-- Failure kinds of the library, one per panic site of the source. -/
inductive PermError where
  | tooDeep
  | wrongFormat
  | conflictingPath
  | incompatibleScope
  | actionsNotInUniverse
  deriving DecidableEq, Repr

/-- Model of `serde_json::Value`; objects are association lists. -/
inductive Json where
  | null : Json
  | bool (b : Bool) : Json
  | num (n : Int) : Json
  | str (s : String) : Json
  | arr (elems : List Json) : Json
  | obj (fields : List (String × Json)) : Json

/-- Constant `MAX_JSON_DEPTH_ALLOWED` from `action_serialization/mod.rs` line 10. -/
def MAX_JSON_DEPTH_ALLOWED : Nat := 20

/-- Constant `ACTION_DIVIDER` from `action_serialization/mod.rs` line 13.
The source sets it to a colon (its own tests and doc comments assume a dot;
the embedding follows the source). -/
def ACTION_DIVIDER : Char := ':'

/-- The divider as a one-character string, as produced by the `format!` call. -/
def divStr : String := String.singleton ACTION_DIVIDER

/-- Model of `deserialize_actions` (`action_serialization/mod.rs` lines 33-78).
The Rust function checks the depth once at entry and then loops over the map
entries; since the depth does not change inside the loop, re-checking the same
condition before each entry is equivalent, which lets the loop and the
function be a single recursion here.  Each entry's key is appended to the
accumulated `pre` (with the divider unless `pre` is empty); object values
recurse one level deeper, boolean values insert the accumulated action when
`true`, and any other value is the `wrong format` panic. -/
def deserialize_actions (current_depth : Nat) (pre : String)
    (json_obj : List (String × Json)) : Except PermError (Finset String) :=
  if MAX_JSON_DEPTH_ALLOWED ≤ current_depth then .error .tooDeep
  else
    match json_obj with
    | [] => .ok ∅
    | (key, value) :: rest =>
      let action_value := if pre = "" then key else pre ++ divStr ++ key
      match value with
      | .obj map => do
          let sub ← deserialize_actions (current_depth + 1) action_value map
          let acc ← deserialize_actions current_depth pre rest
          .ok (sub ∪ acc)
      | .bool val => do
          let acc ← deserialize_actions current_depth pre rest
          .ok (if val then insert action_value acc else acc)
      | _ => .error .wrongFormat
termination_by sizeOf json_obj
decreasing_by all_goals simp <;> omega

/-- Splitting a character list at every occurrence of `c`, keeping empty
pieces — the semantics of Rust's `str::split` on a `char` pattern. -/
def splitChars (c : Char) : List Char → List (List Char)
  | [] => [[]]
  | ch :: rest =>
    match splitChars c rest with
    | [] => [[]]
    | cur :: acc => if ch = c then [] :: cur :: acc else (ch :: cur) :: acc

/-- The segment list of an action: `action.split(ACTION_DIVIDER).collect()`. -/
def segsOf (a : String) : List String :=
  (splitChars ACTION_DIVIDER a.data).map (fun l => ⟨l⟩)

/-- Lookup in a `serde_json::Map`, modelling `map.get_mut(key)`. -/
def mapLookup : List (String × Json) → String → Option Json
  | [], _ => none
  | (k', v') :: rest, k => if k' = k then some v' else mapLookup rest k

/-- Insertion into a `serde_json::Map`: replaces the value of an existing key,
otherwise adds the binding.  (The source's `BTreeMap` stores keys sorted; the
position of a binding is never observable in the properties below, so this
keeps insertion order instead.) -/
def mapInsert : List (String × Json) → String → Json → List (String × Json)
  | [], k, v => [(k, v)]
  | (k', v') :: rest, k, v =>
    if k' = k then (k, v) :: rest else (k', v') :: mapInsert rest k v

/-- Model of the per-action loop of `serialize_actions`
(`action_serialization/mod.rs` lines 92-118).  `last` is
`objects[objects.len() - 1]`; note the source compares each segment to it **by
value**, not by position.  A segment equal to `last` is written as a `true`
leaf into the current map (overwriting whatever was there) and the walk stays
at the current map; otherwise the walk descends into an existing object child,
panics (`conflictingPath`) if the child is not an object, or creates a fresh
object child to descend into. -/
def insert_objects (last : String) :
    List String → List (String × Json) → Except PermError (List (String × Json))
  | [], map => .ok map
  | obj :: rest, map =>
    if obj = last then
      insert_objects last rest (mapInsert map obj (.bool true))
    else
      match mapLookup map obj with
      | some (.obj sub) => do
          let sub' ← insert_objects last rest sub
          .ok (mapInsert map obj (.obj sub'))
      | some _ => .error .conflictingPath
      | none => do
          let sub' ← insert_objects last rest []
          .ok (mapInsert map obj (.obj sub'))

/-- The fold of `serialize_actions` over the action set, starting from the
map built so far. -/
def serialize_actions_from (map : List (String × Json)) :
    List String → Except PermError (List (String × Json))
  | [] => .ok map
  | action :: rest => do
      let objects := segsOf action
      let map' ← insert_objects (objects.getLastD "") objects map
      serialize_actions_from map' rest

/-- Model of `serialize_actions` (`action_serialization/mod.rs` lines 82-122):
fold every action of the set into an initially empty map.  The input list is
the iteration order of the source's `HashSet`. -/
def serialize_actions (actions : List String) : Except PermError (List (String × Json)) :=
  serialize_actions_from [] actions

/-! Spec-side notions about JSON trees, used to state what the codec computes:
nesting depth, well-formedness (objects and boolean leaves only), and the
root-to-leaf paths whose leaf is `true`. -/

/-- Nesting depth of a JSON object map: the number of object levels strictly
below it (a flat map of booleans has depth 0). -/
def objDepth : List (String × Json) → Nat
  | [] => 0
  | (_, .obj m) :: rest => max (objDepth m + 1) (objDepth rest)
  | _ :: rest => objDepth rest
termination_by l => sizeOf l
decreasing_by all_goals simp <;> omega

/-- Well-formed tree: every value is a nested object or a boolean leaf. -/
def wfFields : List (String × Json) → Bool
  | [] => true
  | (_, .obj m) :: rest => wfFields m && wfFields rest
  | (_, .bool _) :: rest => wfFields rest
  | _ :: _ => false
termination_by l => sizeOf l
decreasing_by all_goals simp <;> omega

/-- Modelled from the spec: the root-to-leaf paths of a tree whose boolean
leaf is `true`, as segment lists ("at each leaf, the full path from the root
[...] is computed; if the boolean leaf value is `true`, that joined path is
inserted into the result set"). -/
def truePaths : List (String × Json) → List (List String)
  | [] => []
  | (k, .obj m) :: rest => (truePaths m).map (fun p => k :: p) ++ truePaths rest
  | (k, .bool b) :: rest => (if b then [[k]] else []) ++ truePaths rest
  | _ :: rest => truePaths rest
termination_by l => sizeOf l
decreasing_by all_goals simp <;> omega

/-- The paths contributed by one map entry. -/
def entryPaths (k : String) : Json → List (List String)
  | .obj m => (truePaths m).map (fun p => k :: p)
  | .bool b => if b then [[k]] else []
  | _ => []

/-- Modelled from the spec: joining a segment path onto an accumulated action
value, exactly as `deserialize_actions` accumulates its `pre` argument (the
divider is added only when the accumulator is nonempty). -/
def joinPath (pre : String) (segs : List String) : String :=
  segs.foldl (fun acc k => if acc = "" then k else acc ++ divStr ++ k) pre

/-- A JSON document nested exactly `n` levels deep: `n` nested singleton
objects around a flat boolean map (matching the nesting count used by the
source's doc comments, where `{"blog": {"comments": {...}}}` has depth 2). -/
def docChain : Nat → List (String × Json)
  | 0 => [("a", .bool true)]
  | n + 1 => [("obj", .obj (docChain n))]

/-- Invariant of the maps built by `serialize_actions`: keys are unique at
every level, every leaf is `Bool true`, and every object child contains at
least one `true` leaf below it. -/
inductive Trie : List (String × Json) → Prop where
  | nil : Trie []
  | consBool (k : String) (rest : List (String × Json)) (hk : k ∉ rest.map Prod.fst)
      (ht : Trie rest) : Trie ((k, .bool true) :: rest)
  | consObj (k : String) (m rest : List (String × Json)) (hk : k ∉ rest.map Prod.fst)
      (hne : truePaths m ≠ []) (hm : Trie m) (ht : Trie rest) : Trie ((k, .obj m) :: rest)

/-- One segment list is an initial segment of another. -/
def pathLE (p q : List String) : Prop := ∃ t, p ++ t = q

theorem pathLE_iff_take (p q : List String) : pathLE p q ↔ q.take p.length = p := by
  constructor
  · rintro ⟨t, rfl⟩
    simp
  · intro h
    refine ⟨q.drop p.length, ?_⟩
    conv_rhs => rw [← List.take_append_drop p.length q]
    rw [h]

instance (p q : List String) : Decidable (pathLE p q) :=
  decidable_of_iff _ (pathLE_iff_take p q).symm

/-! The `Permission` entity (`src/permission/mod.rs`). -/

/-- Opaque scope identifier (`uuid::Uuid`); only ever compared for equality. -/
abbrev Uuid := Nat

/-- Model of `Permission` (`permission/mod.rs` lines 26-29): an action set and
an optional manager identifier. -/
structure Permission where
  actions : Finset String
  manager_id : Option Uuid
  deriving DecidableEq

/-- Model of `Permission::from_actions` (`permission/mod.rs` lines 57-62); the
manager calls the by-value variant `from_actions_and_uuid`, whose body builds
the same record. -/
def Permission.from_actions (actions : Finset String) (manager_id : Option Uuid) :
    Permission :=
  { actions := actions, manager_id := manager_id }

/-- Model of `Permission::from_json` (`permission/mod.rs` lines 156-173) after
JSON parsing: the parsed root object is taken as input (serde guarantees the
root of a parsed document handed to the match is an object in the only
non-panicking branch), its actions are deserialized from depth 0. -/
def Permission.from_json (actions_json : List (String × Json)) (manager_id : Option Uuid) :
    Except PermError Permission := do
  let actions_generated ← deserialize_actions 0 "" actions_json
  .ok { actions := actions_generated, manager_id := manager_id }

/-- Model of `Permission::is_managed` (`permission/mod.rs` lines 242-244). -/
def Permission.is_managed (p : Permission) : Bool :=
  p.manager_id.isSome

/-- Model of `Permission::has_same_manager` (`permission/mod.rs` lines 272-274). -/
def Permission.has_same_manager (p other : Permission) : Bool :=
  p.manager_id = other.manager_id

/-- Model of `Permission::union` (`permission/mod.rs` lines 326-338). -/
def Permission.union (p other : Permission) : Except PermError Permission :=
  if ¬ p.has_same_manager other then .error .incompatibleScope
  else .ok (Permission.from_actions (p.actions ∪ other.actions) p.manager_id)

/-- Model of `Permission::difference` (`permission/mod.rs` lines 388-400). -/
def Permission.difference (p other : Permission) : Except PermError Permission :=
  if ¬ p.has_same_manager other then .error .incompatibleScope
  else .ok (Permission.from_actions (p.actions \ other.actions) p.manager_id)

/-- Model of `Permission::contains` (`permission/mod.rs` lines 447-453). -/
def Permission.contains (p other : Permission) : Except PermError Bool :=
  if ¬ p.has_same_manager other then .error .incompatibleScope
  else .ok (other.actions ⊆ p.actions)

/-- Model of `Permission::contains_action` (`permission/mod.rs` lines 475-477). -/
def Permission.contains_action (p : Permission) (action_str : String) : Bool :=
  action_str ∈ p.actions

/-! The `PermissionManager` (`src/permission_manager/mod.rs`). -/

/-- Model of `PermissionManager` (`permission_manager/mod.rs` lines 18-21);
the `universe` field is named `univ` because `universe` is a Lean keyword. -/
structure PermissionManager where
  univ : Permission
  id : Uuid

/-- Model of `PermissionManager::from_actions` (`permission_manager/mod.rs`
lines 49-56); the fresh `Uuid::new_v4()` is passed in explicitly. -/
def PermissionManager.from_actions (universe_actions : Finset String) (id : Uuid) :
    PermissionManager :=
  { univ := Permission.from_actions universe_actions (some id), id := id }

/-- Model of `PermissionManager::from_json` (`permission_manager/mod.rs`
lines 86-93), taking the parsed root object and the fresh id. -/
def PermissionManager.from_json (universe_actions_json : List (String × Json)) (id : Uuid) :
    Except PermError PermissionManager := do
  let u ← Permission.from_json universe_actions_json (some id)
  .ok { univ := u, id := id }

/-- Model of `PermissionManager::get_universe` (`permission_manager/mod.rs`
lines 114-116). -/
def PermissionManager.get_universe (m : PermissionManager) : Permission :=
  m.univ

/-- Model of `PermissionManager::validate_perm` (`permission_manager/mod.rs`
lines 145-147): `self.universe.has_same_manager(perm) && self.universe.contains(perm)`,
with Rust's short-circuiting `&&` (so `contains` runs only when the managers
already match and its panic branch is unreachable). -/
def PermissionManager.validate_perm (m : PermissionManager) (perm : Permission) :
    Except PermError Bool :=
  if m.univ.has_same_manager perm then m.univ.contains perm else .ok false

/-- Model of `PermissionManager::perm_from_actions` (`permission_manager/mod.rs`
lines 181-189). -/
def PermissionManager.perm_from_actions (m : PermissionManager) (actions : Finset String) :
    Except PermError Permission := do
  let perm := Permission.from_actions actions (some m.id)
  let valid ← m.validate_perm perm
  if valid then .ok perm else .error .actionsNotInUniverse

/-- Model of `PermissionManager::perm_from_json` (`permission_manager/mod.rs`
lines 221-229). -/
def PermissionManager.perm_from_json (m : PermissionManager)
    (actions_json : List (String × Json)) : Except PermError Permission := do
  let perm ← Permission.from_json actions_json (some m.id)
  let valid ← m.validate_perm perm
  if valid then .ok perm else .error .actionsNotInUniverse

/-- A manager state obtainable through the public constructors. -/
def Reachable (m : PermissionManager) : Prop :=
  (∃ acts id, m = PermissionManager.from_actions acts id) ∨
  (∃ doc id, PermissionManager.from_json doc id = .ok m)

/-! Basic lemmas about maps, paths and the trie invariant. -/

theorem truePaths_cons (k : String) (v : Json) (rest : List (String × Json)) :
    truePaths ((k, v) :: rest) = entryPaths k v ++ truePaths rest := by
  cases v <;> simp [truePaths, entryPaths]

theorem truePaths_append (l₁ l₂ : List (String × Json)) :
    truePaths (l₁ ++ l₂) = truePaths l₁ ++ truePaths l₂ := by
  induction l₁ with
  | nil => simp [truePaths]
  | cons hd tl ih =>
    obtain ⟨k, v⟩ := hd
    rw [List.cons_append, truePaths_cons, truePaths_cons, ih, List.append_assoc]

theorem mapLookup_eq_none_iff (m : List (String × Json)) (k : String) :
    mapLookup m k = none ↔ k ∉ m.map Prod.fst := by
  induction m with
  | nil => simp [mapLookup]
  | cons hd tl ih =>
    obtain ⟨k', v'⟩ := hd
    by_cases h : k' = k <;> simp [mapLookup, h, ih, Ne.symm]

theorem mapInsert_of_lookup_none (m : List (String × Json)) (k : String) (v : Json)
    (h : mapLookup m k = none) : mapInsert m k v = m ++ [(k, v)] := by
  induction m with
  | nil => simp [mapInsert]
  | cons hd tl ih =>
    obtain ⟨k', v'⟩ := hd
    simp only [mapLookup] at h
    rcases Decidable.em (k' = k) with he | he
    · simp [he] at h
    · simp only [mapInsert, if_neg he, List.cons_append, List.cons.injEq, true_and]
      exact ih (by simpa [if_neg he] using h)

theorem mapInsert_keys_of_lookup_some (m : List (String × Json)) (k : String) (w v : Json)
    (h : mapLookup m k = some w) :
    (mapInsert m k v).map Prod.fst = m.map Prod.fst := by
  induction m with
  | nil => simp [mapLookup] at h
  | cons hd tl ih =>
    obtain ⟨k', v'⟩ := hd
    rcases Decidable.em (k' = k) with he | he
    · simp [mapInsert, he]
    · simp only [mapLookup, if_neg he] at h
      simp [mapInsert, if_neg he, ih h]

theorem mapInsert_keys_of_lookup_none (m : List (String × Json)) (k : String) (v : Json)
    (h : mapLookup m k = none) :
    (mapInsert m k v).map Prod.fst = m.map Prod.fst ++ [k] := by
  rw [mapInsert_of_lookup_none m k v h]
  simp

theorem mapInsert_lookup_self (m : List (String × Json)) (k : String) (v : Json)
    (h : mapLookup m k = some v) : mapInsert m k v = m := by
  induction m with
  | nil => simp [mapLookup] at h
  | cons hd tl ih =>
    obtain ⟨k', v'⟩ := hd
    rcases Decidable.em (k' = k) with he | he
    · subst he
      simp [mapLookup] at h
      subst h
      simp [mapInsert]
    · simp only [mapLookup, if_neg he] at h
      simp [mapInsert, if_neg he, ih h]

/-- A value that may legally stand as a map entry inside a trie. -/
def goodEntry (v : Json) : Prop :=
  v = .bool true ∨ ∃ s, v = .obj s ∧ Trie s ∧ truePaths s ≠ []

theorem trie_lookup (m : List (String × Json)) (k : String) (v : Json)
    (ht : Trie m) (h : mapLookup m k = some v) : goodEntry v := by
  induction ht with
  | nil => simp [mapLookup] at h
  | consBool k' rest hk hrest ih =>
    rcases Decidable.em (k' = k) with he | he
    · simp only [mapLookup, if_pos he, Option.some.injEq] at h
      exact Or.inl h.symm
    · exact ih (by simpa [mapLookup, if_neg he] using h)
  | consObj k' s rest hk hne hs hrest ihs ih =>
    rcases Decidable.em (k' = k) with he | he
    · simp only [mapLookup, if_pos he, Option.some.injEq] at h
      exact Or.inr ⟨s, h.symm, hs, hne⟩
    · exact ih (by simpa [mapLookup, if_neg he] using h)

theorem mem_truePaths_of_lookup_bool (m : List (String × Json)) (k : String)
    (h : mapLookup m k = some (.bool true)) : [k] ∈ truePaths m := by
  induction m with
  | nil => simp [mapLookup] at h
  | cons hd tl ih =>
    obtain ⟨k', v'⟩ := hd
    rw [truePaths_cons]
    rcases Decidable.em (k' = k) with he | he
    · simp only [mapLookup, if_pos he, Option.some.injEq] at h
      subst he h
      simp [entryPaths]
    · simp only [mapLookup, if_neg he] at h
      exact List.mem_append_right _ (ih h)

theorem mem_truePaths_of_lookup_obj (m : List (String × Json)) (k : String)
    (sub : List (String × Json)) (p : List String)
    (h : mapLookup m k = some (.obj sub)) (hp : p ∈ truePaths sub) :
    k :: p ∈ truePaths m := by
  induction m with
  | nil => simp [mapLookup] at h
  | cons hd tl ih =>
    obtain ⟨k', v'⟩ := hd
    rw [truePaths_cons]
    rcases Decidable.em (k' = k) with he | he
    · simp only [mapLookup, if_pos he, Option.some.injEq] at h
      subst he h
      exact List.mem_append_left _ (List.mem_map_of_mem _ hp)
    · simp only [mapLookup, if_neg he] at h
      exact List.mem_append_right _ (ih h)

theorem trie_mapInsert (m : List (String × Json)) (k : String) (v : Json)
    (ht : Trie m) (hv : goodEntry v) : Trie (mapInsert m k v) := by
  induction ht with
  | nil =>
    rcases hv with h | ⟨s, h, hs, hne⟩ <;> subst h
    · exact Trie.consBool k [] (by simp) Trie.nil
    · exact Trie.consObj k s [] (by simp) hne hs Trie.nil
  | consBool k' rest hk hrest ih =>
    rcases Decidable.em (k' = k) with he | he
    · subst he
      rw [mapInsert, if_pos rfl]
      rcases hv with h | ⟨s, h, hs, hne⟩ <;> subst h
      · exact Trie.consBool k' rest hk hrest
      · exact Trie.consObj k' s rest hk hne hs hrest
    · rw [mapInsert, if_neg he]
      refine Trie.consBool k' _ ?_ ih
      rcases hl : mapLookup rest k with _ | w
      · rw [mapInsert_keys_of_lookup_none _ _ _ hl]
        simp only [List.mem_append, List.mem_singleton]
        rintro (h | h)
        · exact hk h
        · exact he h
      · rw [mapInsert_keys_of_lookup_some _ _ _ _ hl]
        exact hk
  | consObj k' s rest hk hne hs hrest ihs ih =>
    rcases Decidable.em (k' = k) with he | he
    · subst he
      rw [mapInsert, if_pos rfl]
      rcases hv with h | ⟨s', h, hs', hne'⟩ <;> subst h
      · exact Trie.consBool k' rest hk hrest
      · exact Trie.consObj k' s' rest hk hne' hs' hrest
    · rw [mapInsert, if_neg he]
      refine Trie.consObj k' s _ ?_ hne hs ih
      rcases hl : mapLookup rest k with _ | w
      · rw [mapInsert_keys_of_lookup_none _ _ _ hl]
        simp only [List.mem_append, List.mem_singleton]
        rintro (h | h)
        · exact hk h
        · exact he h
      · rw [mapInsert_keys_of_lookup_some _ _ _ _ hl]
        exact hk

/-- Replacing the value stored at an existing key of a trie splits the path
list into the untouched surroundings and the entry's own contribution. -/
theorem truePaths_mapInsert_of_lookup_some (m : List (String × Json)) (k : String)
    (vold vnew : Json) (ht : Trie m) (h : mapLookup m k = some vold) :
    ∃ A B, truePaths m = A ++ entryPaths k vold ++ B ∧
      truePaths (mapInsert m k vnew) = A ++ entryPaths k vnew ++ B := by
  induction ht with
  | nil => simp [mapLookup] at h
  | consBool k' rest hk hrest ih =>
    rcases Decidable.em (k' = k) with he | he
    · simp only [mapLookup, if_pos he, Option.some.injEq] at h
      subst he
      subst h
      exact ⟨[], truePaths rest, by rw [truePaths_cons]; simp,
        by rw [mapInsert, if_pos rfl, truePaths_cons]; simp⟩
    · simp only [mapLookup, if_neg he] at h
      obtain ⟨A, B, h₁, h₂⟩ := ih h
      refine ⟨entryPaths k' (.bool true) ++ A, B, ?_, ?_⟩
      · rw [truePaths_cons, h₁]; simp
      · rw [mapInsert, if_neg he, truePaths_cons, h₂]; simp
  | consObj k' s rest hk hne hs hrest ihs ih =>
    rcases Decidable.em (k' = k) with he | he
    · simp only [mapLookup, if_pos he, Option.some.injEq] at h
      subst he
      subst h
      exact ⟨[], truePaths rest, by rw [truePaths_cons]; simp,
        by rw [mapInsert, if_pos rfl, truePaths_cons]; simp⟩
    · simp only [mapLookup, if_neg he] at h
      obtain ⟨A, B, h₁, h₂⟩ := ih h
      refine ⟨entryPaths k' (.obj s) ++ A, B, ?_, ?_⟩
      · rw [truePaths_cons, h₁]; simp
      · rw [mapInsert, if_neg he, truePaths_cons, h₂]; simp

/-- Depth of a value as a map entry. -/
def valDepth : Json → Nat
  | .obj s => objDepth s + 1
  | _ => 0

theorem objDepth_cons (k : String) (v : Json) (rest : List (String × Json)) :
    objDepth ((k, v) :: rest) = max (valDepth v) (objDepth rest) := by
  cases v <;> simp [objDepth, valDepth]

theorem objDepth_mapInsert (m : List (String × Json)) (k : String) (v : Json) :
    objDepth (mapInsert m k v) ≤ max (objDepth m) (valDepth v) := by
  induction m with
  | nil => simp [mapInsert, objDepth_cons, objDepth]
  | cons hd tl ih =>
    obtain ⟨k', v'⟩ := hd
    rcases Decidable.em (k' = k) with he | he
    · rw [mapInsert, if_pos he, objDepth_cons, objDepth_cons]
      omega
    · rw [mapInsert, if_neg he, objDepth_cons, objDepth_cons]
      omega

theorem nil_not_mem_truePaths (m : List (String × Json)) : [] ∉ truePaths m := by
  induction m with
  | nil => simp [truePaths]
  | cons hd tl ih =>
    obtain ⟨k, v⟩ := hd
    rw [truePaths_cons]
    intro h
    rcases List.mem_append.mp h with h | h
    · cases v <;> simp [entryPaths] at h
    · exact ih h

theorem objDepth_lookup_obj (m : List (String × Json)) (k : String)
    (sub : List (String × Json)) (h : mapLookup m k = some (.obj sub)) :
    objDepth sub + 1 ≤ objDepth m := by
  induction m with
  | nil => simp [mapLookup] at h
  | cons hd tl ih =>
    obtain ⟨k', v'⟩ := hd
    rw [objDepth_cons]
    rcases Decidable.em (k' = k) with he | he
    · simp only [mapLookup, if_pos he, Option.some.injEq] at h
      subst h
      simp [valDepth]
    · simp only [mapLookup, if_neg he] at h
      exact le_trans (ih h) (le_max_right _ _)

/-- Inserting one action (as its segment list `objects`, with `last` its final
segment) into a trie: provided no earlier segment equals the final one and no
existing path is a proper prefix (or proper extension) of the new path, the
walk succeeds and adds exactly that path. -/
theorem insert_objects_ok (objects : List String) :
    ∀ (last : String) (m : List (String × Json)),
    Trie m →
    objects.getLast? = some last →
    last ∉ objects.dropLast →
    (∀ p ∈ truePaths m, pathLE p objects → p = objects) →
    (∀ p ∈ truePaths m, pathLE objects p → objects = p) →
    ∃ m', insert_objects last objects m = .ok m' ∧ Trie m' ∧
      (truePaths m').toFinset = insert objects (truePaths m).toFinset ∧
      objDepth m' ≤ max (objDepth m) (objects.length - 1) := by
  induction objects with
  | nil => intro last m _ h; simp at h
  | cons obj rest ih =>
    intro last m ht hlast hnd hp1 hp2
    rcases Decidable.em (obj = last) with he | he
    · -- the by-value check fires: `obj` equals the final segment
      subst he
      have hrest : rest = [] := by
        rcases rest with _ | ⟨b, tl⟩
        · rfl
        · exfalso; exact hnd (by simp [List.dropLast])
      subst hrest
      simp only [List.getLast?_singleton, Option.some.injEq] at hlast
      simp only [insert_objects, if_pos rfl]
      rcases hl : mapLookup m obj with _ | v
      · -- fresh leaf appended
        refine ⟨mapInsert m obj (.bool true), rfl, trie_mapInsert m obj _ ht (Or.inl rfl), ?_, ?_⟩
        · rw [mapInsert_of_lookup_none m obj _ hl, truePaths_append, truePaths_cons]
          ext x
          simp [entryPaths, truePaths]
          tauto
        · refine le_trans (objDepth_mapInsert m obj _) ?_
          simp [valDepth]
      · rcases trie_lookup m obj v ht hl with hv | ⟨s, hv, hs, hsne⟩
        · -- the leaf is already present: re-inserting it changes nothing
          subst hv
          rw [mapInsert_lookup_self m obj _ hl]
          refine ⟨m, rfl, ht, ?_, by simp⟩
          rw [Finset.insert_eq_self.mpr (List.mem_toFinset.mpr (mem_truePaths_of_lookup_bool m obj hl))]
        · -- a group lives where the leaf would go: excluded by the extension hypothesis
          exfalso
          subst hv
          obtain ⟨p₀, hp₀⟩ := List.exists_mem_of_ne_nil _ hsne
          have hmem : obj :: p₀ ∈ truePaths m := mem_truePaths_of_lookup_obj m obj s p₀ hl hp₀
          have := hp2 (obj :: p₀) hmem ⟨p₀, rfl⟩
          simp only [List.cons.injEq, true_and] at this
          exact nil_not_mem_truePaths s (this ▸ hp₀)
    · -- `obj` is an intermediate segment
      have hrestne : rest ≠ [] := by
        rintro rfl
        simp only [List.getLast?_singleton, Option.some.injEq] at hlast
        exact he hlast
      have hlast' : rest.getLast? = some last := by
        rcases rest with _ | ⟨b, tl⟩
        · exact (hrestne rfl).elim
        · rw [List.getLast?_cons_cons] at hlast; exact hlast
      have hnd' : last ∉ rest.dropLast := by
        intro h
        apply hnd
        rcases rest with _ | ⟨b, tl⟩
        · exact (hrestne rfl).elim
        · simp [List.dropLast] at h ⊢
          exact Or.inr h
      rcases hl : mapLookup m obj with _ | v
      · -- no child yet: grow a fresh subtree holding only `rest`
        obtain ⟨sub', hok, htrie', hpaths', hdepth'⟩ :=
          ih last [] Trie.nil hlast' hnd' (by simp [truePaths]) (by simp [truePaths])
        have hsne : truePaths sub' ≠ [] := by
          intro h
          rw [h] at hpaths'
          exact absurd hpaths'.symm (by simp [Finset.insert_ne_empty])
        have hsub : ∀ q, q ∈ truePaths sub' ↔ q = rest := by
          intro q
          have := Finset.ext_iff.mp hpaths' q
          simpa [List.mem_toFinset, truePaths] using this
        have hstep : insert_objects last (obj :: rest) m =
            Except.ok (mapInsert m obj (.obj sub')) := by
          simp only [insert_objects, if_neg he, hl, hok, Bind.bind, Except.bind]
        refine ⟨mapInsert m obj (.obj sub'), hstep,
          trie_mapInsert m obj _ ht (Or.inr ⟨sub', rfl, htrie', hsne⟩), ?_, ?_⟩
        · rw [mapInsert_of_lookup_none m obj _ hl, truePaths_append, truePaths_cons]
          ext x
          simp only [List.mem_toFinset, List.mem_append, entryPaths, List.mem_map, hsub,
            Finset.mem_insert, truePaths, List.not_mem_nil, or_false]
          constructor
          · rintro (hx | ⟨p, rfl, rfl⟩)
            · exact Or.inr hx
            · exact Or.inl rfl
          · rintro (rfl | hx)
            · exact Or.inr ⟨rest, rfl, rfl⟩
            · exact Or.inl hx
        · refine le_trans (objDepth_mapInsert m obj _) ?_
          have h1 : objDepth sub' ≤ rest.length - 1 := by
            simpa [objDepth] using hdepth'
          have h2 : 1 ≤ rest.length := List.length_pos.mpr hrestne
          simp only [valDepth, List.length_cons]
          omega
      · rcases trie_lookup m obj v ht hl with hv | ⟨s, hv, hs, hsne⟩
        · -- a leaf blocks the path: excluded by the prefix hypothesis
          exfalso
          subst hv
          have hmem : [obj] ∈ truePaths m := mem_truePaths_of_lookup_bool m obj hl
          have := hp1 [obj] hmem ⟨rest, rfl⟩
          simp only [List.cons.injEq, true_and] at this
          exact hrestne this.symm
        · -- descend into the existing child
          subst hv
          have hp1' : ∀ p ∈ truePaths s, pathLE p rest → p = rest := by
            intro p hp hle
            have hmem : obj :: p ∈ truePaths m := mem_truePaths_of_lookup_obj m obj s p hl hp
            have : obj :: p = obj :: rest := by
              apply hp1 (obj :: p) hmem
              obtain ⟨t, hle⟩ := hle
              exact ⟨t, by rw [List.cons_append, hle]⟩
            exact (List.cons.injEq _ _ _ _ ▸ this).2
          have hp2' : ∀ p ∈ truePaths s, pathLE rest p → rest = p := by
            intro p hp hle
            have hmem : obj :: p ∈ truePaths m := mem_truePaths_of_lookup_obj m obj s p hl hp
            have : obj :: rest = obj :: p := by
              apply hp2 (obj :: p) hmem
              obtain ⟨t, hle⟩ := hle
              exact ⟨t, by rw [List.cons_append, hle]⟩
            exact (List.cons.injEq _ _ _ _ ▸ this).2
          obtain ⟨sub', hok, htrie', hpaths', hdepth'⟩ := ih last s hs hlast' hnd' hp1' hp2'
          have hsne' : truePaths sub' ≠ [] := by
            intro h
            rw [h] at hpaths'
            exact absurd hpaths'.symm (by simp [Finset.insert_ne_empty])
          have hsub : ∀ q, q ∈ truePaths sub' ↔ q = rest ∨ q ∈ truePaths s := by
            intro q
            have := Finset.ext_iff.mp hpaths' q
            simpa [List.mem_toFinset] using this
          obtain ⟨A, B, hA, hB⟩ :=
            truePaths_mapInsert_of_lookup_some m obj (.obj s) (.obj sub') ht hl
          have hstep : insert_objects last (obj :: rest) m =
              Except.ok (mapInsert m obj (.obj sub')) := by
            simp only [insert_objects, if_neg he, hl, hok, Bind.bind, Except.bind]
          refine ⟨mapInsert m obj (.obj sub'), hstep,
            trie_mapInsert m obj _ ht (Or.inr ⟨sub', rfl, htrie', hsne'⟩), ?_, ?_⟩
          · rw [hA, hB]
            ext x
            simp only [List.mem_toFinset, List.mem_append, entryPaths, List.mem_map, hsub,
              Finset.mem_insert]
            constructor
            · rintro ((hx | ⟨p, hp, rfl⟩) | hx)
              · exact Or.inr (Or.inl (Or.inl hx))
              · rcases hp with rfl | hp
                · exact Or.inl rfl
                · exact Or.inr (Or.inl (Or.inr ⟨p, hp, rfl⟩))
              · exact Or.inr (Or.inr hx)
            · rintro (rfl | ((hx | ⟨p, hp, rfl⟩) | hx))
              · exact Or.inl (Or.inr ⟨rest, Or.inl rfl, rfl⟩)
              · exact Or.inl (Or.inl hx)
              · exact Or.inl (Or.inr ⟨p, Or.inr hp, rfl⟩)
              · exact Or.inr hx
          · refine le_trans (objDepth_mapInsert m obj _) ?_
            have h1 : objDepth sub' ≤ max (objDepth s) (rest.length - 1) := hdepth'
            have h2 : 1 ≤ rest.length := List.length_pos.mpr hrestne
            have h3 : objDepth s + 1 ≤ objDepth m := objDepth_lookup_obj m obj s hl
            simp only [valDepth, List.length_cons]
            omega

theorem toFinset_list_map {α β : Type} [DecidableEq α] [DecidableEq β]
    (f : α → β) (l : List α) : (l.map f).toFinset = l.toFinset.image f := by
  induction l with
  | nil => simp
  | cons hd tl ih => simp [ih]

theorem joinPath_cons (pre key : String) (p : List String) :
    joinPath pre (key :: p) =
      joinPath (if pre = "" then key else pre ++ divStr ++ key) p := rfl

theorem trie_wfFields (m : List (String × Json)) (ht : Trie m) : wfFields m = true := by
  induction ht with
  | nil => simp [wfFields]
  | consBool k rest hk hrest ih => simpa [wfFields] using ih
  | consObj k s rest hk hne hs hrest ihs ih => simp [wfFields, ihs, ih]

/-- What `deserialize_actions` computes on a well-formed tree within the depth
budget: the set of true root-to-leaf paths, each joined onto the accumulated
`pre`. -/
theorem deserialize_ok (d : Nat) (pre : String) (l : List (String × Json)) :
    wfFields l = true → d + objDepth l < 20 →
    deserialize_actions d pre l = .ok (((truePaths l).map (joinPath pre)).toFinset) := by
  induction d, pre, l using deserialize_actions.induct with
  | case1 d pre l hle =>
    intro _ hd
    exfalso
    simp only [MAX_JSON_DEPTH_ALLOWED] at hle
    omega
  | case2 d pre hlt =>
    intro _ _
    simp [deserialize_actions, if_neg hlt, truePaths]
  | case3 d pre hlt key rest action_value map ih_sub ih_rest =>
    intro hwf hd
    have hwf2 : wfFields map = true ∧ wfFields rest = true := by
      simpa [wfFields, Bool.and_eq_true] using hwf
    have hdep := objDepth_cons key (.obj map) rest
    simp only [valDepth] at hdep
    have hdm : (d + 1) + objDepth map < 20 := by omega
    have hdr : d + objDepth rest < 20 := by omega
    have h2 := ih_rest hwf2.2 hdr
    have h1 : deserialize_actions (d + 1) (if pre = "" then key else pre ++ divStr ++ key) map =
        Except.ok (((truePaths map).map
          (joinPath (if pre = "" then key else pre ++ divStr ++ key))).toFinset) :=
      ih_sub hwf2.1 hdm
    simp only [deserialize_actions, if_neg hlt, h1, h2, Bind.bind, Except.bind]
    congr 1
    have hcomp : joinPath pre ∘ (fun p => key :: p) =
        joinPath (if pre = "" then key else pre ++ divStr ++ key) := by
      funext p
      exact joinPath_cons pre key p
    rw [truePaths_cons]
    simp only [entryPaths, List.map_append, List.map_map, hcomp, List.toFinset_append]
  | case4 d pre hlt key rest val ih_rest =>
    intro hwf hd
    have hwf2 : wfFields rest = true := by simpa [wfFields] using hwf
    have hdep := objDepth_cons key (.bool val) rest
    simp only [valDepth] at hdep
    have hdr : d + objDepth rest < 20 := by omega
    have h2 := ih_rest hwf2 hdr
    simp only [deserialize_actions, if_neg hlt, h2, Bind.bind, Except.bind]
    congr 1
    rw [truePaths_cons]
    rcases val with _ | _
    · simp [entryPaths]
    · simp only [entryPaths, if_pos rfl, List.map_append, List.toFinset_append]
      ext x
      simp [joinPath]
  | case5 d pre hlt key value rest hobj hbool =>
    intro hwf hd
    exfalso
    cases value with
    | obj m => exact hobj m rfl
    | bool b => exact hbool b rfl
    | null => simp [wfFields] at hwf
    | num n => simp [wfFields] at hwf
    | str s => simp [wfFields] at hwf
    | arr es => simp [wfFields] at hwf

theorem getLast?_eq_some_getLastD :
    ∀ (l : List String) (d : String), l ≠ [] → l.getLast? = some (l.getLastD d)
  | [a], _, _ => by simp
  | a :: b :: tl, d, _ => by
    rw [List.getLast?_cons_cons, List.getLastD_cons]
    exact getLast?_eq_some_getLastD (b :: tl) a (List.cons_ne_nil _ _)

theorem splitChars_ne_nil (c : Char) (l : List Char) : splitChars c l ≠ [] := by
  cases l with
  | nil => simp [splitChars]
  | cons ch rest =>
    simp only [splitChars]
    rcases h : splitChars c rest with _ | ⟨cur, acc⟩
    · simp
    · rcases Decidable.em (ch = c) with he | he <;> simp [he]

theorem segsOf_ne_nil (a : String) : segsOf a ≠ [] := by
  simp [segsOf, splitChars_ne_nil]

/-- Folding further actions into a trie that already holds the processed
prefix of the action list. -/
theorem serialize_actions_from_ok (R : List String) :
    ∀ (P : List String) (m : List (String × Json)),
    Trie m →
    (truePaths m).toFinset = (P.map segsOf).toFinset →
    objDepth m ≤ 19 →
    (∀ a ∈ P ++ R, ∀ b ∈ P ++ R, pathLE (segsOf a) (segsOf b) → a = b) →
    (∀ a ∈ P ++ R, (segsOf a).length ≤ 20) →
    (∀ a ∈ P ++ R, (segsOf a).getLastD "" ∉ (segsOf a).dropLast) →
    ∃ m', serialize_actions_from m R = .ok m' ∧ Trie m' ∧
      (truePaths m').toFinset = ((P ++ R).map segsOf).toFinset ∧
      objDepth m' ≤ 19 := by
  induction R with
  | nil =>
    intro P m ht hpaths hdep _ _ _
    exact ⟨m, rfl, ht, by simpa using hpaths, hdep⟩
  | cons a R ih =>
    intro P m ht hpaths hdep hpf hlen hlast
    have haP : a ∈ P ++ a :: R := by simp
    obtain ⟨m₂, hok, htrie₂, hpaths₂, hdep₂⟩ :=
      insert_objects_ok (segsOf a) ((segsOf a).getLastD "") m ht
        (getLast?_eq_some_getLastD _ _ (segsOf_ne_nil a))
        (hlast a haP)
        (by
          intro p hp hle
          have hmem : p ∈ (P.map segsOf).toFinset := hpaths ▸ List.mem_toFinset.mpr hp
          obtain ⟨b, hb, rfl⟩ := by simpa [List.mem_toFinset] using hmem
          rw [hpf b (by simp [hb]) a haP hle])
        (by
          intro p hp hle
          have hmem : p ∈ (P.map segsOf).toFinset := hpaths ▸ List.mem_toFinset.mpr hp
          obtain ⟨b, hb, rfl⟩ := by simpa [List.mem_toFinset] using hmem
          rw [hpf a haP b (by simp [hb]) hle])
    have hpaths₂' : (truePaths m₂).toFinset = ((P ++ [a]).map segsOf).toFinset := by
      rw [hpaths₂, hpaths]
      ext x
      simp [or_comm]
    have hdep₂' : objDepth m₂ ≤ 19 := by
      have := hlen a haP
      omega
    have hassoc : P ++ [a] ++ R = P ++ a :: R := by simp
    obtain ⟨m', hok', htrie', hpaths', hdep'⟩ :=
      ih (P ++ [a]) m₂ htrie₂ hpaths₂' hdep₂'
        (by rw [hassoc]; exact hpf) (by rw [hassoc]; exact hlen) (by rw [hassoc]; exact hlast)
    refine ⟨m', ?_, htrie', by rw [← hassoc]; exact hpaths', hdep'⟩
    simp only [serialize_actions_from, hok, Bind.bind, Except.bind]
    exact hok'

/-- C3 (amended): decoding the tree produced by encoding an action set yields
exactly that set, provided the set is prefix-free at divider boundaries, every
action has at most 20 segments, rejoining each action's segments with the
divider reproduces it (no leading-divider "false positive"), and no action has
a non-final segment equal to its final segment. -/
theorem C3_roundtrip (L : List String) (hnd : L.Nodup)
    (hjoin : ∀ a ∈ L, joinPath "" (segsOf a) = a)
    (hpf : ∀ a ∈ L, ∀ b ∈ L, pathLE (segsOf a) (segsOf b) → a = b)
    (hlen : ∀ a ∈ L, (segsOf a).length ≤ 20)
    (hlast : ∀ a ∈ L, (segsOf a).getLastD "" ∉ (segsOf a).dropLast) :
    ∃ m, serialize_actions L = .ok m ∧ deserialize_actions 0 "" m = .ok L.toFinset := by
  obtain ⟨m, hok, htrie, hpaths, hdep⟩ :=
    serialize_actions_from_ok L [] [] Trie.nil (by simp [truePaths]) (by simp [objDepth])
      (by simpa using hpf) (by simpa using hlen) (by simpa using hlast)
  simp only [List.nil_append] at hpaths
  refine ⟨m, hok, ?_⟩
  rw [deserialize_ok 0 "" m (trie_wfFields m htrie) (by omega)]
  congr 1
  rw [toFinset_list_map, hpaths, ← toFinset_list_map, List.map_map]
  have : L.map (joinPath "" ∘ segsOf) = L.map id :=
    List.map_congr_left (fun a ha => hjoin a ha)
  rw [this, List.map_id]

/-! Depth boundary: behaviour of the decoder on chain-nested documents. -/

theorem docChain_wf (n : Nat) : wfFields (docChain n) = true := by
  induction n with
  | zero => simp [docChain, wfFields]
  | succ n ih => simp [docChain, wfFields, ih]

theorem docChain_depth (n : Nat) : objDepth (docChain n) = n := by
  induction n with
  | zero => simp [docChain, objDepth]
  | succ n ih => simp [docChain, objDepth, ih]

theorem deserialize_docChain_tooDeep :
    ∀ (n s : Nat) (pre : String), 20 ≤ s + n →
    deserialize_actions s pre (docChain n) = .error .tooDeep := by
  intro n
  induction n with
  | zero =>
    intro s pre h
    have hs : MAX_JSON_DEPTH_ALLOWED ≤ s := by simp only [MAX_JSON_DEPTH_ALLOWED]; omega
    simp [docChain, deserialize_actions, hs]
  | succ n ih =>
    intro s pre h
    rcases Decidable.em (MAX_JSON_DEPTH_ALLOWED ≤ s) with hs | hs
    · simp [docChain, deserialize_actions, hs]
    · have hrec := ih (s + 1)
        (if pre = "" then "obj" else pre ++ divStr ++ "obj") (by omega)
      simp [deserialize_actions, hs, docChain, hrec, Bind.bind, Except.bind]

/-! The `Permission` and `PermissionManager` theorems. -/

theorem validate_perm_eq (m : PermissionManager) (p : Permission) :
    m.validate_perm p =
      .ok (decide (p.manager_id = m.univ.manager_id ∧ p.actions ⊆ m.univ.actions)) := by
  unfold PermissionManager.validate_perm Permission.contains Permission.has_same_manager
  rcases Decidable.em (m.univ.manager_id = p.manager_id) with he | he
  · simp [he]
  · have he' : ¬ p.manager_id = m.univ.manager_id := fun h => he h.symm
    simp [he, he']

theorem perm_from_actions_eq (m : PermissionManager) (A : Finset String) :
    m.perm_from_actions A =
      if some m.id = m.univ.manager_id ∧ A ⊆ m.univ.actions
      then .ok (Permission.from_actions A (some m.id))
      else .error .actionsNotInUniverse := by
  unfold PermissionManager.perm_from_actions
  simp only [validate_perm_eq, Bind.bind, Except.bind]
  rcases Decidable.em (some m.id = m.univ.manager_id ∧ A ⊆ m.univ.actions) with h | h
  · have h' : (Permission.from_actions A (some m.id)).manager_id = m.univ.manager_id ∧
        (Permission.from_actions A (some m.id)).actions ⊆ m.univ.actions := by
      simpa [Permission.from_actions] using h
    rw [decide_eq_true h', if_pos rfl, if_pos h]
  · have h' : ¬ ((Permission.from_actions A (some m.id)).manager_id = m.univ.manager_id ∧
        (Permission.from_actions A (some m.id)).actions ⊆ m.univ.actions) := by
      simpa [Permission.from_actions] using h
    rw [decide_eq_false h', if_neg (by simp), if_neg h]

/-- C2: for every manager and every permission (its own, another manager's, or
an unmanaged one), `validate_perm` never fails and returns `true` exactly when
the permission's scope identifier equals the universe's scope identifier and
its actions are a subset of the universe's actions. -/
theorem C2_validate_perm_total (m : PermissionManager) (p : Permission) :
    m.validate_perm p =
      .ok (decide (p.manager_id = m.get_universe.manager_id ∧
        p.actions ⊆ m.get_universe.actions)) :=
  validate_perm_eq m p

/-- C4: each algebra operation (`union`, `difference`, `contains`) fails with
`IncompatibleScope` exactly when the two scope fields differ (including one
absent, one present), and returns a result exactly when they are equal
(including both absent). -/
theorem C4_scope_gate (p q : Permission) :
    (p.union q = .error .incompatibleScope ↔ p.manager_id ≠ q.manager_id) ∧
    (p.difference q = .error .incompatibleScope ↔ p.manager_id ≠ q.manager_id) ∧
    (p.contains q = .error .incompatibleScope ↔ p.manager_id ≠ q.manager_id) ∧
    ((∃ r, p.union q = .ok r) ↔ p.manager_id = q.manager_id) ∧
    ((∃ r, p.difference q = .ok r) ↔ p.manager_id = q.manager_id) ∧
    ((∃ b, p.contains q = .ok b) ↔ p.manager_id = q.manager_id) := by
  unfold Permission.union Permission.difference Permission.contains Permission.has_same_manager
  rcases Decidable.em (p.manager_id = q.manager_id) with he | he <;> simp [he]

/-- C1: `perm_from_actions` fails with `ActionsNotInUniverse` exactly when the
requested actions are not a subset of the universe's actions, and a returned
permission carries exactly those actions and the manager's own identifier; in
particular with universe `{"a.b","a.c"}` minting `{"a.b"}` succeeds while
minting `{"a.b","z"}` fails. -/
theorem C1_perm_from_actions_boundary (m : PermissionManager) (A : Finset String)
    (hwf : m.get_universe.manager_id = some m.id) :
    (m.perm_from_actions A = .error .actionsNotInUniverse ↔
      ¬ A ⊆ m.get_universe.actions) ∧
    (∀ p, m.perm_from_actions A = .ok p → p.actions = A ∧ p.manager_id = some m.id) ∧
    (∀ u : Uuid,
      (∃ p, (PermissionManager.from_actions {"a.b", "a.c"} u).perm_from_actions {"a.b"} =
          .ok p ∧ p.actions = {"a.b"} ∧ p.manager_id = some u) ∧
      (PermissionManager.from_actions {"a.b", "a.c"} u).perm_from_actions {"a.b", "z"} =
        .error .actionsNotInUniverse) := by
  have hwf' : some m.id = m.univ.manager_id := hwf.symm
  refine ⟨?_, ?_, ?_⟩
  · rw [perm_from_actions_eq]
    rcases Decidable.em (A ⊆ m.univ.actions) with hs | hs
    · simp [hwf', hs, PermissionManager.get_universe]
    · simp [hwf', hs, PermissionManager.get_universe]
  · intro p hp
    rw [perm_from_actions_eq] at hp
    rcases Decidable.em (some m.id = m.univ.manager_id ∧ A ⊆ m.univ.actions) with h | h
    · rw [if_pos h] at hp
      cases hp
      exact ⟨rfl, rfl⟩
    · rw [if_neg h] at hp
      cases hp
  · intro u
    constructor
    · refine ⟨Permission.from_actions {"a.b"} (some u), ?_, rfl, rfl⟩
      rw [perm_from_actions_eq,
        if_pos ⟨rfl, show ({"a.b"} : Finset String) ⊆ {"a.b", "a.c"} by decide⟩]
      rfl
    · rw [perm_from_actions_eq, if_neg]
      rintro ⟨-, hsub⟩
      have hz : ("z" : String) ∈ ({"a.b", "z"} : Finset String) := by decide
      have hz' : ("z" : String) ∈ ({"a.b", "a.c"} : Finset String) := hsub hz
      exact absurd hz' (by decide)

/-- C8: for scope-compatible permissions, `difference` returns the actions of
the first absent from the second, and the difference contains the second
exactly when the second's action set is empty. -/
theorem C8_difference_law (A B : Permission) (h : A.manager_id = B.manager_id) :
    ∃ D, A.difference B = .ok D ∧ D.actions = A.actions \ B.actions ∧
      D.contains B = .ok (decide (B.actions = ∅)) := by
  refine ⟨Permission.from_actions (A.actions \ B.actions) A.manager_id, ?_, rfl, ?_⟩
  · unfold Permission.difference Permission.has_same_manager
    simp [h]
  · unfold Permission.contains Permission.has_same_manager Permission.from_actions
    simp only [h]
    rw [if_neg (by simp)]
    congr 1
    rw [decide_eq_decide]
    constructor
    · intro hsub
      by_contra hne
      obtain ⟨b, hb⟩ := Finset.nonempty_iff_ne_empty.mpr hne
      have := hsub hb
      rw [Finset.mem_sdiff] at this
      exact this.2 hb
    · intro he
      simp [he]

/-- C10: on every reachable manager, the universe and every permission minted
by `perm_from_actions` or `perm_from_json` carry `some` of the manager's own
identifier: they are managed and have the same manager as the universe. -/
theorem C10_minted_scope (m : PermissionManager) (hm : Reachable m) :
    m.get_universe.manager_id = some m.id ∧
    m.get_universe.is_managed = true ∧
    (∀ A p, m.perm_from_actions A = .ok p →
      p.manager_id = some m.id ∧ p.is_managed = true ∧
      p.has_same_manager m.get_universe = true) ∧
    (∀ doc p, m.perm_from_json doc = .ok p →
      p.manager_id = some m.id ∧ p.is_managed = true ∧
      p.has_same_manager m.get_universe = true) := by
  have huniv : m.univ.manager_id = some m.id := by
    rcases hm with ⟨acts, id, rfl⟩ | ⟨doc, id, hok⟩
    · rfl
    · unfold PermissionManager.from_json Permission.from_json at hok
      rcases h : deserialize_actions 0 "" doc with err | S <;> rw [h] at hok
      · simp [Bind.bind, Except.bind] at hok
      · simp only [Bind.bind, Except.bind] at hok
        cases hok
        rfl
  refine ⟨huniv, by simp [Permission.is_managed, PermissionManager.get_universe, huniv], ?_, ?_⟩
  · intro A p hp
    rw [perm_from_actions_eq] at hp
    rcases Decidable.em (some m.id = m.univ.manager_id ∧ A ⊆ m.univ.actions) with h | h
    · rw [if_pos h] at hp
      cases hp
      refine ⟨rfl, rfl, ?_⟩
      simp [Permission.has_same_manager, Permission.from_actions,
        PermissionManager.get_universe, huniv]
    · rw [if_neg h] at hp
      cases hp
  · intro doc p hp
    unfold PermissionManager.perm_from_json Permission.from_json at hp
    rcases h : deserialize_actions 0 "" doc with err | S <;> rw [h] at hp
    · simp [Bind.bind, Except.bind] at hp
    · simp only [Bind.bind, Except.bind] at hp
      rw [validate_perm_eq] at hp
      simp only [Bind.bind, Except.bind] at hp
      rcases Decidable.em
          ((Permission.mk S (some m.id)).manager_id = m.univ.manager_id ∧
            (Permission.mk S (some m.id)).actions ⊆ m.univ.actions) with hv | hv
      · rw [decide_eq_true hv, if_pos rfl] at hp
        cases hp
        refine ⟨rfl, rfl, ?_⟩
        simp [Permission.has_same_manager, PermissionManager.get_universe, huniv]
      · rw [decide_eq_false hv, if_neg (by simp)] at hp
        cases hp

end SimplePermManager

namespace SimplePermManager

/-- C5: decoding tracks recursion depth from the externally supplied starting
depth and fails with `TooDeep` exactly when starting depth plus nesting
reaches the fixed maximum 20; in particular a document nested exactly 20
levels deep fails with `TooDeep` while the same structure nested 19 levels
succeeds. -/
theorem C5_depth_boundary :
    (∀ (s n : Nat) (pre : String),
      deserialize_actions s pre (docChain n) = .error .tooDeep ↔ 20 ≤ s + n) ∧
    deserialize_actions 0 "" (docChain 20) = .error .tooDeep ∧
    (∃ S, deserialize_actions 0 "" (docChain 19) = .ok S) := by
  have hok : ∀ (s n : Nat) (pre : String), s + n < 20 →
      ∃ S, deserialize_actions s pre (docChain n) = .ok S := fun s n pre h =>
    ⟨_, deserialize_ok s pre (docChain n) (docChain_wf n)
      (by rw [docChain_depth]; omega)⟩
  refine ⟨?_, deserialize_docChain_tooDeep 20 0 "" (by omega), hok 0 19 "" (by omega)⟩
  intro s n pre
  constructor
  · intro h
    by_contra hc
    push_neg at hc
    obtain ⟨S, hS⟩ := hok s n pre (by omega)
    rw [hS] at h
    cases h
  · exact deserialize_docChain_tooDeep n s pre

/-- Witness for C3 on the concrete set {"a:b", "a:c"}. -/
theorem C3_roundtrip_witness :
    ∃ m, serialize_actions ["a:b", "a:c"] = .ok m ∧
      deserialize_actions 0 "" m = .ok (["a:b", "a:c"].toFinset) :=
  C3_roundtrip ["a:b", "a:c"] (by decide) (by decide) (by decide) (by decide) (by decide)

/-- C3 counterexample: the singleton action set {"a:a"} (vacuously prefix-free
and with no divider inside a segment) does not round-trip: the encoder's
by-value test for the final segment turns it into the leaf `{"a": true}`,
which decodes to {"a"}. -/
theorem C3_counterexample :
    serialize_actions ["a:a"] = .ok [("a", Json.bool true)] ∧
    deserialize_actions 0 "" [("a", Json.bool true)] = .ok {"a"} ∧
    ¬ deserialize_actions 0 "" [("a", Json.bool true)] = .ok (["a:a"].toFinset) := by
  have h2 : deserialize_actions 0 "" [("a", Json.bool true)] = .ok {"a"} := by
    simp [deserialize_actions, MAX_JSON_DEPTH_ALLOWED, Bind.bind, Except.bind]
  refine ⟨rfl, h2, ?_⟩
  rw [h2]
  intro hc
  injection hc with hc
  exact absurd hc (by decide)

end SimplePermManager

namespace SimplePermManager

theorem splitChars_of_not_mem (c : Char) (l : List Char) (h : c ∉ l) :
    splitChars c l = [l] := by
  induction l with
  | nil => simp [splitChars]
  | cons ch rest ih =>
    have hch : ¬ ch = c := fun he => h (he ▸ List.mem_cons_self _ _)
    have hrest : c ∉ rest := fun hm => h (List.mem_cons_of_mem _ hm)
    simp [splitChars, ih hrest, hch]

theorem splitChars_append_divider (c : Char) (l₁ l₂ : List Char) :
    splitChars c (l₁ ++ c :: l₂) = splitChars c l₁ ++ splitChars c l₂ := by
  induction l₁ with
  | nil =>
    cases hsp : splitChars c l₂ with
    | nil => exact absurd hsp (splitChars_ne_nil c l₂)
    | cons cur acc => simp [splitChars, hsp]
  | cons ch rest ih =>
    cases hsp : splitChars c rest with
    | nil => exact absurd hsp (splitChars_ne_nil c rest)
    | cons cur acc =>
      rcases Decidable.em (ch = c) with he | he
      · simp [splitChars, ih, hsp, he]
      · simp [splitChars, ih, hsp, he]

theorem segsOf_no_divider (u : String) (h : ACTION_DIVIDER ∉ u.data) :
    segsOf u = [u] := by
  unfold segsOf
  rw [splitChars_of_not_mem _ _ h]
  rfl

theorem data_append_div (u v : String) :
    (u ++ divStr ++ v).data = u.data ++ ACTION_DIVIDER :: v.data := by
  simp [divStr, String.singleton]

theorem segsOf_append_div (u v : String) (hu : ACTION_DIVIDER ∉ u.data)
    (hv : ACTION_DIVIDER ∉ v.data) : segsOf (u ++ divStr ++ v) = [u, v] := by
  unfold segsOf
  rw [data_append_div, splitChars_append_divider,
    splitChars_of_not_mem _ _ hu, splitChars_of_not_mem _ _ hv]
  rfl

/-- C6 (amended): for a pair of actions where one is a strict prefix of the
other at a divider boundary, the encoder's outcome depends on the processing
order: if the shorter action is processed first, its leaf blocks the longer
path and encoding fails with `ConflictingPath`; if the longer action is
processed first, the shorter action's final segment silently overwrites the
group, and encoding succeeds with the longer action lost. -/
theorem C6_order_dependent (u v : String) (hu : ACTION_DIVIDER ∉ u.data)
    (hv : ACTION_DIVIDER ∉ v.data) (huv : ¬ u = v) :
    serialize_actions [u, u ++ divStr ++ v] = .error .conflictingPath ∧
    serialize_actions [u ++ divStr ++ v, u] = .ok [(u, Json.bool true)] := by
  have hsu : segsOf u = [u] := segsOf_no_divider u hu
  have hsuv : segsOf (u ++ divStr ++ v) = [u, v] := segsOf_append_div u v hu hv
  constructor
  · simp [serialize_actions, serialize_actions_from, hsu, hsuv, insert_objects,
      mapInsert, mapLookup, huv, Bind.bind, Except.bind]
  · simp [serialize_actions, serialize_actions_from, hsu, hsuv, insert_objects,
      mapInsert, mapLookup, huv, Bind.bind, Except.bind]

/-- Witness for C6 at `u = "a"`, `v = "b"`. -/
theorem C6_order_dependent_witness :
    serialize_actions ["a", "a" ++ divStr ++ "b"] = .error .conflictingPath ∧
    serialize_actions ["a" ++ divStr ++ "b", "a"] = .ok [("a", Json.bool true)] :=
  C6_order_dependent "a" "b" (by decide) (by decide) (by decide)

/-- C6 counterexample: processing the longer action first, the set
{"a:b", "a"} encodes *successfully* to `{"a": true}` — the claimed
unconditional `ConflictingPath` failure does not happen and the group for
"a:b" is silently overwritten. -/
theorem C6_counterexample :
    serialize_actions ["a:b", "a"] = .ok [("a", Json.bool true)] := rfl

/-- The concrete scenario tree of the specification:
`{"building":{"view":true,"meter":{"create":true}},"user":{"delete":true}}`. -/
def scenario_json : List (String × Json) :=
  [("building", .obj [("view", .bool true), ("meter", .obj [("create", .bool true)])]),
   ("user", .obj [("delete", .bool true)])]

/-- C9: the divider constant is the colon, so decoding the scenario document
yields the colon-joined set {"building:view", "building:meter:create",
"user:delete"} and *not* the dot-joined set the claim (and the repository's
own tests) state. -/
theorem divStr_eq_colon : divStr = ":" := rfl

theorem C9_divider_scenario :
    deserialize_actions 0 "" scenario_json =
      .ok {"building:view", "building:meter:create", "user:delete"} ∧
    ¬ deserialize_actions 0 "" scenario_json =
      .ok {"building.view", "building.meter.create", "user.delete"} ∧
    ACTION_DIVIDER = ':' := by
  have hwf : wfFields scenario_json = true := by simp [scenario_json, wfFields]
  have hdep : objDepth scenario_json < 20 := by simp [scenario_json, objDepth]
  have h0 := deserialize_ok 0 "" scenario_json hwf (by omega)
  have h2 : ((truePaths scenario_json).map (joinPath "")).toFinset =
      {"building:view", "building:meter:create", "user:delete"} := by
    simp [scenario_json, truePaths, joinPath, divStr_eq_colon]
  have h : deserialize_actions 0 "" scenario_json =
      .ok {"building:view", "building:meter:create", "user:delete"} := by
    rw [h0, h2]
  refine ⟨h, ?_, rfl⟩
  rw [h]
  intro hc
  injection hc with hc
  exact absurd hc (by decide)

/-- Witness for C1 with universe {"a.b","a.c"}: minting {"a.b","z"} fails with
`ActionsNotInUniverse` and indeed {"a.b","z"} is not a subset of the
universe's actions. -/
theorem C1_perm_from_actions_boundary_witness :
    (PermissionManager.from_actions {"a.b", "a.c"} 0).perm_from_actions {"a.b", "z"} =
      .error .actionsNotInUniverse ∧
    ¬ ({"a.b", "z"} : Finset String) ⊆
      (PermissionManager.from_actions {"a.b", "a.c"} 0).get_universe.actions := by
  have h := C1_perm_from_actions_boundary
    (PermissionManager.from_actions {"a.b", "a.c"} 0) {"a.b", "z"} rfl
  have hns : ¬ ({"a.b", "z"} : Finset String) ⊆ ({"a.b", "a.c"} : Finset String) := by
    decide
  exact ⟨h.1.mpr hns, hns⟩

/-- Witness for C8 with actions {"x","y"} and {"y"} under no manager. -/
theorem C8_difference_law_witness :
    ∃ D, (Permission.from_actions {"x", "y"} none).difference
        (Permission.from_actions {"y"} none) = .ok D ∧
      D.actions = (Permission.from_actions {"x", "y"} none).actions \
        (Permission.from_actions {"y"} none).actions ∧
      D.contains (Permission.from_actions {"y"} none) =
        .ok (decide ((Permission.from_actions {"y"} none).actions = ∅)) :=
  C8_difference_law (Permission.from_actions {"x", "y"} none)
    (Permission.from_actions {"y"} none) rfl

/-- Witness for C10 on the manager built from {"a"} with identifier 7. -/
theorem C10_minted_scope_witness :
    (PermissionManager.from_actions {"a"} 7).get_universe.manager_id = some 7 ∧
    (PermissionManager.from_actions {"a"} 7).get_universe.is_managed = true :=
  ⟨(C10_minted_scope (PermissionManager.from_actions {"a"} 7)
      (Or.inl ⟨{"a"}, 7, rfl⟩)).1,
   (C10_minted_scope (PermissionManager.from_actions {"a"} 7)
      (Or.inl ⟨{"a"}, 7, rfl⟩)).2.1⟩

end SimplePermManager

namespace SimplePermManager

/-- Witness for C2 on a concrete manager and a foreign permission. -/
theorem C2_validate_perm_total_witness :
    (PermissionManager.from_actions {"a", "b"} 3).validate_perm
        (Permission.from_actions {"a"} (some 3)) =
      .ok (decide ((Permission.from_actions {"a"} (some 3)).manager_id =
          (PermissionManager.from_actions {"a", "b"} 3).get_universe.manager_id ∧
        (Permission.from_actions {"a"} (some 3)).actions ⊆
          (PermissionManager.from_actions {"a", "b"} 3).get_universe.actions)) :=
  C2_validate_perm_total (PermissionManager.from_actions {"a", "b"} 3)
    (Permission.from_actions {"a"} (some 3))

/-- Witness for C4 on one scoped and one unscoped permission. -/
theorem C4_scope_gate_witness :
    ((Permission.from_actions {"x"} (some 1)).union (Permission.from_actions {"y"} none) =
        .error .incompatibleScope ↔
      (Permission.from_actions {"x"} (some 1)).manager_id ≠
        (Permission.from_actions {"y"} none).manager_id) ∧
    ((Permission.from_actions {"x"} (some 1)).difference (Permission.from_actions {"y"} none) =
        .error .incompatibleScope ↔
      (Permission.from_actions {"x"} (some 1)).manager_id ≠
        (Permission.from_actions {"y"} none).manager_id) ∧
    ((Permission.from_actions {"x"} (some 1)).contains (Permission.from_actions {"y"} none) =
        .error .incompatibleScope ↔
      (Permission.from_actions {"x"} (some 1)).manager_id ≠
        (Permission.from_actions {"y"} none).manager_id) ∧
    ((∃ r, (Permission.from_actions {"x"} (some 1)).union (Permission.from_actions {"y"} none) =
        .ok r) ↔
      (Permission.from_actions {"x"} (some 1)).manager_id =
        (Permission.from_actions {"y"} none).manager_id) ∧
    ((∃ r, (Permission.from_actions {"x"} (some 1)).difference
        (Permission.from_actions {"y"} none) = .ok r) ↔
      (Permission.from_actions {"x"} (some 1)).manager_id =
        (Permission.from_actions {"y"} none).manager_id) ∧
    ((∃ b, (Permission.from_actions {"x"} (some 1)).contains (Permission.from_actions {"y"} none) =
        .ok b) ↔
      (Permission.from_actions {"x"} (some 1)).manager_id =
        (Permission.from_actions {"y"} none).manager_id) :=
  C4_scope_gate (Permission.from_actions {"x"} (some 1)) (Permission.from_actions {"y"} none)

/-- Witness for C5: the two concrete depth facts. -/
theorem C5_depth_boundary_witness :
    deserialize_actions 0 "" (docChain 20) = .error .tooDeep ∧
    (∃ S, deserialize_actions 0 "" (docChain 19) = .ok S) :=
  ⟨C5_depth_boundary.2.1, C5_depth_boundary.2.2⟩

end SimplePermManager

namespace SimplePermManager

/-- Modelled from the spec: a root-to-leaf path "with segments joined by the
divider", literally — a divider between every two segments, with no special
case for empty segments. -/
def dividerJoin : List String → String
  | [] => ""
  | [s] => s
  | s :: rest => s ++ divStr ++ dividerJoin rest

theorem foldl_join_nonempty (t : List String) :
    ∀ acc : String, acc ≠ "" →
    t.foldl (fun acc k => if acc = "" then k else acc ++ divStr ++ k) acc =
      dividerJoin (acc :: t) := by
  induction t with
  | nil =>
    intro acc h
    simp [dividerJoin]
  | cons s t' ih =>
    intro acc h
    have hne : acc ++ divStr ++ s ≠ "" := by
      intro hc
      have hd := congrArg String.data hc
      simp [divStr, String.singleton] at hd
    simp only [List.foldl, if_neg h]
    rw [ih (acc ++ divStr ++ s) hne]
    cases t' with
    | nil => simp [dividerJoin]
    | cons u rest => simp [dividerJoin, String.append_assoc]

theorem joinPath_eq_dividerJoin (k : String) (t : List String) (hk : k ≠ "") :
    joinPath "" (k :: t) = dividerJoin (k :: t) := by
  unfold joinPath
  simp only [List.foldl, if_pos rfl]
  exact foldl_join_nonempty t k hk

theorem truePaths_head_mem_keys (l : List (String × Json)) :
    ∀ p ∈ truePaths l, ∃ k t, p = k :: t ∧ k ∈ l.map Prod.fst := by
  induction l with
  | nil => simp [truePaths]
  | cons hd tl ih =>
    obtain ⟨k, v⟩ := hd
    intro p hp
    rw [truePaths_cons] at hp
    rcases List.mem_append.mp hp with h | h
    · cases v with
      | obj m =>
        simp only [entryPaths, List.mem_map] at h
        obtain ⟨q, _, rfl⟩ := h
        exact ⟨k, q, rfl, by simp⟩
      | bool b =>
        rcases b with _ | _ <;> simp [entryPaths] at h
        exact h ▸ ⟨k, [], rfl, by simp⟩
      | null => simp [entryPaths] at h
      | num n => simp [entryPaths] at h
      | str st => simp [entryPaths] at h
      | arr es => simp [entryPaths] at h
    · obtain ⟨k', t, rfl, hk'⟩ := ih p h
      exact ⟨k', t, rfl, by simp [hk']⟩

/-- C7 (amended): on every well-formed tree (nested objects with boolean
leaves) within the depth bound whose root-level keys are nonempty, decoding
returns exactly the set of divider-joined root-to-leaf paths whose boolean
leaf is `true`; paths ending in a `false` leaf are omitted (they are absent
from `truePaths`).  The nonempty-root-key restriction is needed because the
decoder's empty-prefix check drops the divider after an empty root key. -/
theorem C7_decode_divider_joined (l : List (String × Json))
    (hwf : wfFields l = true) (hdepth : objDepth l < 20)
    (hroot : ∀ kv ∈ l, Prod.fst kv ≠ "") :
    deserialize_actions 0 "" l = .ok (((truePaths l).map dividerJoin).toFinset) := by
  rw [deserialize_ok 0 "" l hwf (by omega)]
  have hmap : (truePaths l).map (joinPath "") = (truePaths l).map dividerJoin := by
    apply List.map_congr_left
    intro p hp
    obtain ⟨k, t, rfl, hk⟩ := truePaths_head_mem_keys l p hp
    obtain ⟨⟨k', v'⟩, hmem, hfst⟩ := List.mem_map.mp hk
    subst hfst
    exact joinPath_eq_dividerJoin _ t (hroot _ hmem)
  rw [hmap]

/-- Witness for C7 on a concrete tree with one `false` leaf. -/
theorem C7_decode_divider_joined_witness :
    deserialize_actions 0 ""
        [("a", Json.obj [("b", Json.bool true), ("c", Json.bool false)]), ("d", Json.bool true)] =
      .ok (((truePaths
        [("a", Json.obj [("b", Json.bool true), ("c", Json.bool false)]), ("d", Json.bool true)]).map
          dividerJoin).toFinset) :=
  C7_decode_divider_joined _ (by simp [wfFields]) (by simp [objDepth]) (by decide)

/-- C7 counterexample: the well-formed, depth-1 tree `{"": {"x": true}}`
decodes to {"x"}, but its unique true root-to-leaf path `["", "x"]` joined
with the divider is ":x" — the decoder's `prefix.is_empty()` branch drops the
divider after the empty root key, so the claimed divider-joined result set
{":x"} is not returned. -/
theorem C7_counterexample :
    wfFields [("", Json.obj [("x", Json.bool true)])] = true ∧
    objDepth [("", Json.obj [("x", Json.bool true)])] < 20 ∧
    deserialize_actions 0 "" [("", Json.obj [("x", Json.bool true)])] = .ok {"x"} ∧
    ((truePaths [("", Json.obj [("x", Json.bool true)])]).map dividerJoin).toFinset =
      ({":x"} : Finset String) ∧
    ¬ deserialize_actions 0 "" [("", Json.obj [("x", Json.bool true)])] =
      .ok (((truePaths [("", Json.obj [("x", Json.bool true)])]).map dividerJoin).toFinset) := by
  have h3 : deserialize_actions 0 "" [("", Json.obj [("x", Json.bool true)])] = .ok {"x"} := by
    simp [deserialize_actions, MAX_JSON_DEPTH_ALLOWED, Bind.bind, Except.bind]
  have h4 : ((truePaths [("", Json.obj [("x", Json.bool true)])]).map dividerJoin).toFinset =
      ({":x"} : Finset String) := by
    simp [truePaths, dividerJoin, divStr_eq_colon]
  refine ⟨by simp [wfFields], by simp [objDepth], h3, h4, ?_⟩
  rw [h3, h4]
  intro hc
  injection hc with hc
  exact absurd hc (by decide)

end SimplePermManager
